import Mathlib

/-!
Verification of the agent execution core of the developer CLI.

The TypeScript source is shallowly embedded: JS strings are modelled as
their sequence of UTF-16 code units (`List Char`, called `JSStr` below),
filesystem and git plumbing effects are modelled as explicit environments,
and a thrown JS exception is modelled as `Except.error`.  Each definition
mirrors one function (or one regex `replace`/`split` call) of the source;
the doc comment of a definition names the source location it embeds.
-/

/-- JS strings, modelled as their sequence of UTF-16 code units. -/
abbrev JSStr := List Char

/-- Whitespace as recognised by JS `trim` and the regex class `\s`,
restricted to the ASCII whitespace occurring in the data handled here. -/
def isWS (c : Char) : Bool :=
  (c == ' ') || (c == '\t') || (c == '\n') || (c == '\r')

/-- Model of `String.prototype.trim`: drop whitespace from both ends. -/
def jsTrim (s : JSStr) : JSStr :=
  ((s.dropWhile isWS).reverse.dropWhile isWS).reverse

/-- Model of JS `s.split(sep)` for a single-character separator. -/
def splitChar (sep : Char) : JSStr → List JSStr
  | [] => [[]]
  | c :: rest =>
    if c = sep then [] :: splitChar sep rest
    else
      match splitChar sep rest with
      | [] => [[c]]
      | r :: rs => (c :: r) :: rs

/-- Model of JS `parts.join(sep)` for a single-character separator. -/
def joinChar (sep : Char) : List JSStr → JSStr
  | [] => []
  | [l] => l
  | l :: ls => l ++ sep :: joinChar sep ls

/-- Model of `s.split("\x00")` (the field separator of the commit log
format used by `getCommitsBetween` / `getRecentCommits` in
src/src/lib/git/index.ts). -/
def splitNul : JSStr → List JSStr := splitChar '\x00'

/-- Model of `s.split("\x00\n")` (the record separator of the commit log
format, src/src/lib/git/index.ts line 171): JS `split` with a two-character
separator, scanning left to right for non-overlapping occurrences. -/
def splitNulNl : JSStr → List JSStr
  | [] => [[]]
  | [c] => [[c]]
  | c₁ :: c₂ :: rest =>
    if c₁ = '\x00' ∧ c₂ = '\n' then [] :: splitNulNl rest
    else
      match splitNulNl (c₂ :: rest) with
      | [] => [[c₁]]
      | r :: rs => (c₁ :: r) :: rs

/-- Model of `s.split("\n")` (line splitting in
`extractCommitMessageAgentic`, src/unnamed/part_006 line 95). -/
def splitNlJS : JSStr → List JSStr := splitChar '\n'

/-- Model of `s.split("\t")` (file-status line parsing in
`getStagedFiles` / `getFilesChangedBetween`, src/src/lib/git/index.ts). -/
def splitTab : JSStr → List JSStr := splitChar '\t'

/-- Model of `lines.join("\n")`. -/
def joinNl : List JSStr → JSStr := joinChar '\n'

/-- Model of `parts.join("\t")`. -/
def joinTab : List JSStr → JSStr := joinChar '\t'

/-- Lower-casing a JS string (the effect of a case-insensitive regex is
modelled by lower-casing the subject before literal comparison). -/
def toLowerJS (s : JSStr) : JSStr := s.map Char.toLower

/-! ### Sandbox resolver (src/unnamed/part_003)

`readFile`, `listFiles` and `fileExists` all resolve
`fullPath = resolve(basePath, path)` and then check
`fullPath.startsWith(basePath)`.  Absolute paths are modelled as their
component list; `resolveComps` is node's lexical resolution of a relative
path against an absolute base, and `renderPath` renders the component
list back to the string node's `resolve` returns (no trailing slash). -/

/-- One step of node `path.resolve` normalisation: `.` and empty segments
are dropped, `..` pops the last component (staying at the root when there
is nothing to pop), and any other segment is appended. -/
def resolveStep (acc : List String) (seg : String) : List String :=
  if seg = "." ∨ seg = "" then acc
  else if seg = ".." then acc.dropLast
  else acc ++ [seg]

/-- Model of `resolve(basePath, path)` for an absolute `basePath` (given
as its component list) and a relative `path` (given as its segment
list): purely lexical normalisation. -/
def resolveComps (base : List String) (rel : List String) : List String :=
  rel.foldl resolveStep base

/-- Render an absolute path's component list to the path string node
returns: `/`-separated, no trailing slash, `/` for the root itself. -/
def renderPath : List String → JSStr
  | [] => ['/']
  | [seg] => '/' :: seg.toList
  | seg :: rest => ('/' :: seg.toList) ++ renderPath rest

/-- The sandbox check shared by `readFile` (line 19), `listFiles`
(line 49) and `fileExists` (line 130) of src/unnamed/part_003:
`fullPath.startsWith(basePath)`, a plain string-prefix test on the
rendered paths. `true` means access is granted (no denial). -/
def sandboxOk (base rel : List String) : Bool :=
  (renderPath base).isPrefixOf (renderPath (resolveComps base rel))

/-! ### readFile truncation (src/unnamed/part_003 lines 27-33) -/

/-- The fixed truncation marker appended by `readFile`
(src/unnamed/part_003 line 31). -/
def truncationMarker : JSStr := "\n... (file truncated due to size)".toList

/-- Model of the content-shaping step of the `readFile` tool
(src/unnamed/part_003 lines 28-33): contents longer than 100000 code
units are cut to the first 100000 and the marker is appended; shorter
contents are returned verbatim. -/
def readFileResult (content : JSStr) : JSStr :=
  if content.length > 100000 then content.take 100000 ++ truncationMarker
  else content

/-- A concrete over-long file content used to exercise the truncation
branch. -/
def bigContent : JSStr := List.replicate 100001 'a'

/-! ### Repository query layer (src/src/lib/git/index.ts)

`execSync` is modelled by an environment mapping a command line to either
its stdout or a thrown error (`Except.error`).  `exec` trims the output,
exactly like the source's `exec` helper (lines 87-93). -/

/-- Git plumbing environment: a command's stdout, or a thrown exception. -/
def GitEnv : Type := String → Except String String

/-- Model of the `exec` helper (src/src/lib/git/index.ts lines 87-93):
run the command and `trim` its output (the trim modelled by `jsTrim`); a
throw propagates. -/
def gitExec (env : GitEnv) (cmd : String) : Except String String :=
  (env cmd).map (fun out => String.mk (jsTrim out.toList))

/-- A repository state in which every git command throws (the directory
is not a git repository). -/
def notARepoEnv : GitEnv :=
  fun _ => Except.error "fatal: not a git repository"

/-- A repository state in which every git command succeeds with empty
output (e.g. no matching refs, nothing staged). -/
def emptyOutputEnv : GitEnv := fun _ => Except.ok ""

/-- Commit record parsed from the NUL-delimited log format
(src/src/lib/git/index.ts lines 76-80). -/
structure CommitInfo where
  hash : JSStr
  subject : JSStr
  body : JSStr
deriving DecidableEq

/-- File-status record (src/src/lib/git/index.ts lines 82-85). -/
structure StagedFile where
  status : JSStr
  file : JSStr
deriving DecidableEq

/-- Parse one NUL-separated log entry
(src/src/lib/git/index.ts lines 173-176): `entry.split("\x00")`
destructured as hash/subject/body with `""` defaults, body trimmed. -/
def parseLogEntry (entry : JSStr) : CommitInfo :=
  let parts := splitNul entry
  { hash := parts.getD 0 []
    subject := parts.getD 1 []
    body := jsTrim (parts.getD 2 []) }

/-- Parse the (already trimmed) output of
`git log --format="%H%x00%s%x00%b%x00"`
(src/src/lib/git/index.ts lines 168-176, identically lines 120-129):
empty output gives no commits, otherwise split on `"\x00\n"`, drop
entries that are blank after trimming, and parse each entry. -/
def parseLogOutput (output : JSStr) : List CommitInfo :=
  if output = [] then []
  else
    ((splitNulNl output).filter (fun e => !(jsTrim e).isEmpty)).map parseLogEntry

/-- Model of `getCommitsBetween` (src/src/lib/git/index.ts lines
165-180): try/catch around the log command; a throw degrades to `[]`. -/
def getCommitsBetween (env : GitEnv) (base head : String) : List CommitInfo :=
  match gitExec env ("git log " ++ base ++ ".." ++ head ++ " --format=\"%H%x00%s%x00%b%x00\"") with
  | Except.error _ => []
  | Except.ok output => parseLogOutput output.toList

/-- Model of `getRecentCommits` (src/src/lib/git/index.ts lines 118-133):
same parsing, try/catch degrades to `[]`. -/
def getRecentCommits (env : GitEnv) (count : Nat) : List CommitInfo :=
  match gitExec env ("git log -n " ++ toString count ++ " --format=\"%H%x00%s%x00%b%x00\"") with
  | Except.error _ => []
  | Except.ok output => parseLogOutput output.toList

/-- Model of `getDiffBetween` (src/src/lib/git/index.ts lines 182-188):
try/catch degrades to the empty string. -/
def getDiffBetween (env : GitEnv) (base head : String) : String :=
  match gitExec env ("git diff " ++ base ++ "..." ++ head) with
  | Except.error _ => ""
  | Except.ok output => output

/-- Parse one `--name-status` line (src/src/lib/git/index.ts lines
199-201): `line.split("\t")` destructured as status plus the remaining
parts rejoined with tabs. -/
def parseNameStatusLine (line : JSStr) : StagedFile :=
  let parts := splitTab line
  { status := parts.getD 0 [], file := joinTab (parts.drop 1) }

/-- Model of `getFilesChangedBetween` (src/src/lib/git/index.ts lines
190-206): try/catch degrades to `[]`; empty output gives `[]`. -/
def getFilesChangedBetween (env : GitEnv) (base head : String) : List StagedFile :=
  match gitExec env ("git diff --name-status " ++ base ++ "..." ++ head) with
  | Except.error _ => []
  | Except.ok output =>
    if output = "" then []
    else (splitNlJS output.toList).map parseNameStatusLine

/-- Model of `getStagedDiff` (src/src/lib/git/index.ts lines 104-106):
note there is NO try/catch here, so a plumbing throw propagates to the
caller (`Except.error`). -/
def getStagedDiff (env : GitEnv) : Except String String :=
  gitExec env "git diff --cached"

/-- The uncaught plumbing call inside `getStagedFiles`
(src/src/lib/git/index.ts line 109). -/
def getStagedDiffNameStatus (env : GitEnv) : Except String String :=
  gitExec env "git diff --cached --name-status"

/-- Model of `getStagedFiles` (src/src/lib/git/index.ts lines 108-116):
no try/catch — a plumbing throw propagates. -/
def getStagedFiles (env : GitEnv) : Except String (List StagedFile) :=
  match getStagedDiffNameStatus env with
  | Except.error e => Except.error e
  | Except.ok output =>
    Except.ok (if output = "" then []
               else (splitNlJS output.toList).map parseNameStatusLine)

/-! ### The synthetic plumbing output for the round-trip claim

`git log --format="%H%x00%s%x00%b%x00"` prints, for each commit, the
hash, subject and body joined by NUL bytes, a trailing NUL, and then the
newline `git log` appends after every record. -/

/-- The three NUL-joined fields of one record (the expansion of
`%H%x00%s%x00%b`). -/
def rawRecord (c : CommitInfo) : JSStr :=
  c.hash ++ '\x00' :: c.subject ++ '\x00' :: c.body

/-- One full record as emitted by `git log`: fields, the trailing
`%x00`, and the record newline. -/
def logRecord (c : CommitInfo) : JSStr :=
  rawRecord c ++ ['\x00', '\n']

/-- The raw plumbing output for a commit list. -/
def gitLogOutput (commits : List CommitInfo) : JSStr :=
  (commits.map logRecord).flatten

/-- Well-formedness of a commit as real git plumbing produces it: a
nonempty hash of non-whitespace, non-NUL characters (hex digits), a
subject free of NUL not starting with a newline, and a body free of NUL
with no leading or trailing whitespace (git's message cleanup); the body
may contain embedded newlines and tabs. -/
def goodCommit (c : CommitInfo) : Bool :=
  !c.hash.isEmpty &&
  c.hash.all (fun ch => !isWS ch && ch != '\x00') &&
  !c.subject.contains '\x00' &&
  c.subject.head? != some '\n' &&
  !c.body.contains '\x00' &&
  (jsTrim c.body == c.body)

/-! ### Tool executors (src/unnamed/part_003, src/unnamed/part_004)

Filesystem effects are modelled by an environment; a tool executor that
may let a JS exception escape the tool boundary returns `Except.error`. -/

/-- Filesystem environment: existence, file reads (a read failure is a
thrown exception), and directory listings (name and is-directory flag). -/
structure FsEnv where
  pathExists : String → Bool
  readContent : String → Except String String
  readDir : String → Except String (List (String × Bool))

/-- Render a component list to the `String` node's `resolve` returns. -/
def renderPathS (comps : List String) : String :=
  String.mk (renderPath comps)

/-- Model of the `readFile` tool executor (src/unnamed/part_003 lines
15-37): sandbox denial, missing file, and read failure are all converted
to `Except.ok` result text — the try/catch makes this executor total. -/
def readFileExec (fs : FsEnv) (base rel : List String) : Except String String :=
  if !sandboxOk base rel then
    Except.ok "Error: Cannot read files outside the project directory."
  else if !fs.pathExists (renderPathS (resolveComps base rel)) then
    Except.ok ("Error: File not found: " ++ renderPathS rel)
  else
    match fs.readContent (renderPathS (resolveComps base rel)) with
    | Except.ok content => Except.ok (String.mk (readFileResult content.toList))
    | Except.error e => Except.ok ("Error reading file: " ++ e)

/-- The result shape of the `listFiles` tool: either the filtered entry
list (name and kind) or a message string. -/
inductive ListFilesResult where
  | entries (l : List (String × Bool))
  | message (s : String)
deriving DecidableEq

/-- The entry filter of `listFiles` (src/unnamed/part_003 lines 60-65):
hidden entries and `node_modules` are dropped, and with a pattern given,
files not ending in the pattern are dropped. -/
def listFilesFilter (pattern : Option String) (e : String × Bool) : Bool :=
  if e.1.toList.head? = some '.' then false
  else if e.1 = "node_modules" then false
  else
    match pattern with
    | some p => if !e.2 && !e.1.endsWith p then false else true
    | none => true

/-- Model of the `listFiles` tool executor (src/unnamed/part_003 lines
46-75): denial, missing directory, and readdir failure are all converted
to `Except.ok` results by the try/catch. -/
def listFilesExec (fs : FsEnv) (base rel : List String) (pattern : Option String) :
    Except String ListFilesResult :=
  if !sandboxOk base rel then
    Except.ok (ListFilesResult.message "Error: Cannot list files outside the project directory.")
  else if !fs.pathExists (renderPathS (resolveComps base rel)) then
    Except.ok (ListFilesResult.message ("Error: Directory not found: " ++ renderPathS rel))
  else
    match fs.readDir (renderPathS (resolveComps base rel)) with
    | Except.ok entries =>
      let result := entries.filter (listFilesFilter pattern)
      Except.ok (if result.length > 0 then ListFilesResult.entries result
                 else ListFilesResult.message "No files found matching criteria.")
    | Except.error e => Except.ok (ListFilesResult.message ("Error listing directory: " ++ e))

/-- Model of the `getStagedChanges` tool executor (src/unnamed/part_004
lines 74-87): it calls `getStagedDiff`, which has no try/catch, and the
executor itself has none either — a plumbing throw escapes the tool
boundary as `Except.error`. -/
def getStagedChangesExec (env : GitEnv) : Except String String :=
  match getStagedDiff env with
  | Except.error e => Except.error e
  | Except.ok diff =>
    if diff = "" then Except.ok "No staged changes."
    else if diff.length > 50000 then
      Except.ok (diff.take 50000 ++ "\n... (diff truncated due to size)")
    else Except.ok diff

/-! ### Recursive file search (src/unnamed/part_003 lines 78-121) -/

/-- A directory tree: the contents of the searched directory. -/
inductive FSEntry where
  | file (name : String)
  | dir (name : String) (entries : List FSEntry)

/-- The entry's name. -/
def FSEntry.name : FSEntry → String
  | FSEntry.file n => n
  | FSEntry.dir n _ => n

/-- The skip test of `searchRecursive` (src/unnamed/part_003 lines
98-104): hidden entries, `node_modules` and `dist` are never entered. -/
def excludedName (n : String) : Bool :=
  (n.toList.head? = some '.') || (n == "node_modules") || (n == "dist")

/-- Model of `searchRecursive` (src/unnamed/part_003 lines 90-116) acting
on one directory's entry list: `pre` is the relative path of the
directory (the `fullPath.replace(basePath + "/", "")` rendering), `acc`
the results gathered so far; the traversal stops as soon as `maxN`
results are gathered. -/
def searchList (pat : String) (maxN : Nat) : String → List FSEntry → List String → List String
  | _, [], acc => acc
  | pre, e :: es, acc =>
    if maxN ≤ acc.length then acc
    else if excludedName e.name then searchList pat maxN pre es acc
    else
      match e with
      | FSEntry.dir n sub =>
        searchList pat maxN pre es (searchList pat maxN (pre ++ n ++ "/") sub acc)
      | FSEntry.file n =>
        if n.endsWith pat then searchList pat maxN pre es (acc ++ [pre ++ n])
        else searchList pat maxN pre es acc

/-- The effective result cap of `findFiles` (src/unnamed/part_003 line
87): `maxResults || 50` — absent or zero (JS falsy) gives the default
50. -/
def effectiveMax (maxResults : Option Nat) : Nat :=
  match maxResults with
  | none => 50
  | some n => if n = 0 then 50 else n

/-- Model of the `findFiles` tool executor's traversal
(src/unnamed/part_003 lines 85-119) over the searched directory's tree. -/
def findFiles (pat : String) (root : List FSEntry) (maxResults : Option Nat) : List String :=
  searchList pat (effectiveMax maxResults) "" root []

/-- The cap-free in-order list of matches: every file ending in the
pattern, in traversal order, never entering an excluded directory.  This
is the specification side of the claim, to compare `findFiles` against. -/
def collectMatches (pat : String) : String → List FSEntry → List String
  | _, [] => []
  | pre, e :: es =>
    if excludedName e.name then collectMatches pat pre es
    else
      match e with
      | FSEntry.dir n sub =>
        collectMatches pat (pre ++ n ++ "/") sub ++ collectMatches pat pre es
      | FSEntry.file n =>
        (if n.endsWith pat then [pre ++ n] else []) ++ collectMatches pat pre es

/-! ### Commit-style analysis (src/src/lib/git/style.ts) -/

/-- The conventional-commit types of `CONVENTIONAL_COMMIT_REGEX`
(src/src/lib/git/style.ts lines 13-14), in alternation order. -/
def commitStyleTypes : List String :=
  ["feat", "fix", "docs", "style", "refactor", "perf", "test", "chore", "build", "ci", "revert"]

/-- After an optional `!`, a `:` must follow — the `!?:` tail of the
conventional-commit regexes. -/
def colonAfterBang : JSStr → Bool
  | ':' :: _ => true
  | '!' :: ':' :: _ => true
  | _ => false

/-- Scanning for the closing parenthesis of the scope group `(\(.+\))?`
of `CONVENTIONAL_COMMIT_REGEX`: `.` matches anything but a newline, and
the group may end at any `)` with a nonempty inner; `nonempty` records
whether at least one inner character was seen. -/
def scopeTailStyle : Bool → JSStr → Bool
  | _, [] => false
  | nonempty, c :: r =>
    if c = '\n' then false
    else if c = ')' then (nonempty && colonAfterBang r) || scopeTailStyle true r
    else scopeTailStyle true r

/-- Test of `CONVENTIONAL_COMMIT_REGEX =
^(feat|fix|docs|style|refactor|perf|test|chore|build|ci|revert)(\(.+\))?!?:/i`
(src/src/lib/git/style.ts lines 13-14) together with the group-1 capture
(`match[1].toLowerCase()`, line 36): `some ty` when the subject matches
with type `ty`, `none` otherwise.  No type is a prefix of another, so the
alternation is deterministic. -/
def convTypeOf (s : JSStr) : Option String :=
  let low := toLowerJS s
  match commitStyleTypes.find? (fun ty => ty.toList.isPrefixOf low) with
  | some ty =>
    let r := low.drop ty.length
    if colonAfterBang r then some ty
    else
      match r with
      | '(' :: r2 => if scopeTailStyle false r2 then some ty else none
      | _ => none
  | none => none

/-- The analysis result (src/src/lib/git/style.ts lines 3-11). -/
structure CommitStyle where
  usesConventionalCommits : Bool
  conventionalPrefixes : List String
  averageSubjectLength : Nat
  usesCapitalizedSubject : Bool
  endsWithPeriod : Bool
  includesBody : Bool
  examples : List JSStr
deriving DecidableEq

/-- `Math.round` of the exact rational `a / b`: `floor(a / b + 1 / 2)`,
computed in integers as `(2a + b) / (2b)`. -/
def mathRound (a b : Nat) : Nat := (2 * a + b) / (2 * b)

/-- The `Set`-based first-occurrence collection of conventional prefixes
(src/src/lib/git/style.ts lines 31-38). -/
def collectPrefixes (subjects : List JSStr) : List String :=
  subjects.foldl
    (fun acc s =>
      match convTypeOf s with
      | some ty => if ty ∈ acc then acc else acc ++ [ty]
      | none => acc)
    []

/-- Model of `analyzeCommitStyle` (src/src/lib/git/style.ts lines
16-54): an empty commit list gets the fixed default, a nonempty list the
computed statistics.  The JS float comparisons `x > n / 2` and
`x > n / 3` coincide with the Nat-division comparisons written here, and
`Math.round(totalLength / subjects.length)` is `mathRound`. -/
def analyzeCommitStyle (commits : List CommitInfo) : CommitStyle :=
  if commits = [] then
    { usesConventionalCommits := false
      conventionalPrefixes := []
      averageSubjectLength := 50
      usesCapitalizedSubject := true
      endsWithPeriod := false
      includesBody := false
      examples := [] }
  else
    let subjects := commits.map CommitInfo.subject
    let conventionalMatches := subjects.filter (fun s => (convTypeOf s).isSome)
    let totalLength := subjects.foldl (fun sum s => sum + s.length) 0
    let capitalizedCount :=
      (subjects.filter (fun s => s.length > 0 && (s.head?.map Char.isUpper).getD false)).length
    let periodCount := (subjects.filter (fun s => s.getLast? = some '.')).length
    let bodyCount := (commits.filter (fun c => c.body.length > 0)).length
    { usesConventionalCommits := conventionalMatches.length > commits.length / 2
      conventionalPrefixes := collectPrefixes subjects
      averageSubjectLength := mathRound totalLength subjects.length
      usesCapitalizedSubject := capitalizedCount > commits.length / 2
      endsWithPeriod := periodCount > commits.length / 2
      includesBody := bodyCount > commits.length / 3
      examples := subjects.take 5 }

/-! ### Output sanitizer (src/src/lib/ai/prompts.ts lines 47-53,
src/unnamed/part_006)

The three `replace` calls of `extractCommitMessage` are modelled one by
one over `JSStr`. -/

/-- The backquote character (the code-fence delimiter), written by code
point to keep it out of character literals. -/
def backquote : Char := Char.ofNat 96

/-- The apostrophe character, written by code point. -/
def apos : Char := Char.ofNat 39

/-- The regex class `[\w]`: ASCII word characters. -/
def isWordChar (c : Char) : Bool := c.isAlphanum || c == '_'

/-- The line-wise effect of `.replace(/^```[\w]*\n?/gm, "")`: the
`m`-flag `^` anchors each match at a line start, so the global replace
processes the line list.  A line opening with three backquotes loses
them and the maximal following run of word characters; when nothing of
the line remains and a newline follows, the `\n?` consumes that newline
too, i.e. the line disappears from the list altogether.  The deleted
text is never rescanned (JS `replace` continues after the match), so one
pass over the lines is exact. -/
def stripFencesLines : List JSStr → List JSStr
  | [] => []
  | l :: ls =>
    if l.take 3 = [backquote, backquote, backquote] then
      let r := (l.drop 3).dropWhile isWordChar
      if r = [] ∧ ls ≠ [] then stripFencesLines ls
      else r :: stripFencesLines ls
    else l :: stripFencesLines ls

/-- Model of `.replace(/^```[\w]*\n?/gm, "")` as a whole. -/
def stripFencesStart (s : JSStr) : JSStr :=
  joinNl (stripFencesLines (splitNlJS s))

/-- The line-wise effect of `.replace(/```$/gm, "")`: `$` anchors at a
line end, and a left-to-right scan finds exactly the last three
backquotes of a line ending in backquotes, so each line loses one
trailing three-backquote run. -/
def stripLineEnd (l : JSStr) : JSStr :=
  if 3 ≤ l.length ∧ l.drop (l.length - 3) = [backquote, backquote, backquote] then
    l.take (l.length - 3)
  else l

/-- Model of `.replace(/```$/gm, "")` as a whole. -/
def stripFencesEnd (s : JSStr) : JSStr :=
  joinNl ((splitNlJS s).map stripLineEnd)

/-- Try one case-insensitive literal: consume it from the front of `s`
or fail. -/
def tryLit (lit s : JSStr) : Option JSStr :=
  if toLowerJS (s.take lit.length) = lit then some (s.drop lit.length) else none

/-- Try literal alternatives in regex backtracking order, committing to
the first that consumes. -/
def tryAlts : List JSStr → JSStr → Option JSStr
  | [], _ => none
  | a :: as, s => (tryLit a s).orElse (fun _ => tryAlts as s)

/-- The first group of the throat-clearing regex
`(Here'?s?|The|Your)`, expanded into its literal alternatives in the
order a backtracking engine tries them (`'?` and `s?` greedy first).
Since the group must be followed by a literal space, at most one
alternative can lead to an overall match, so committing to the first
consuming alternative is faithful. -/
def preambleLead : List JSStr :=
  ["here".toList ++ [apos, 's'], "here".toList ++ [apos], "heres".toList,
   "here".toList, "the".toList, "your".toList]

/-- Model of the match of
`/^(Here'?s?|The|Your) (the )?(commit )?message:?\s*/i`
(src/src/lib/ai/prompts.ts line 51): anchored at the string start, not
global; `some rest` is the text left after deleting the single match.
The optional groups are committed greedily, which is faithful because
skipping them can succeed only where taking them fails. -/
def matchPreambleCM (s : JSStr) : Option JSStr := do
  let s1 ← tryAlts preambleLead s
  let s2 ← tryLit " ".toList s1
  let s3 := ((tryLit "the ".toList s2).getD s2)
  let s4 := ((tryLit "commit ".toList s3).getD s3)
  let s5 ← tryLit "message".toList s4
  let s6 := ((tryLit ":".toList s5).getD s5)
  pure (s6.dropWhile isWS)

/-- The preamble replace: delete the match if there is one. -/
def stripPreambleCM (s : JSStr) : JSStr :=
  (matchPreambleCM s).getD s

/-- Model of `extractCommitMessage` (src/src/lib/ai/prompts.ts lines
47-53): strip line-start fences, strip line-end fences, strip one
throat-clearing preamble, trim. -/
def extractCommitMessage (s : JSStr) : JSStr :=
  jsTrim (stripPreambleCM (stripFencesEnd (stripFencesStart s)))

/-- The input on which the sanitizer fails to be idempotent: its first
pass strips one throat-clearing preamble and uncovers a second. -/
def doublePreamble : JSStr := "The message: The message: hi".toList

/-! ### Agentic commit-message extraction (src/unnamed/part_006 lines
56-130) -/

/-- `COMMIT_TYPES` (src/unnamed/part_006 lines 56-68). -/
def commitTypes : List String :=
  ["feat", "fix", "docs", "style", "refactor", "perf", "test", "build", "ci", "chore", "revert"]

/-- `IMPERATIVE_VERBS` (src/unnamed/part_006 lines 73-90), lowered since
the regex is case-insensitive. -/
def imperativeVerbs : List String :=
  ["add", "remove", "update", "fix", "change", "create", "delete", "implement",
   "improve", "refactor", "move", "rename", "merge", "release", "bump", "initial"]

/-- Does `\s*.+` match this (rest of a) subject?  `.` matches anything
except a line terminator, so either some non-whitespace character
remains after the optional whitespace run, or the run itself contains a
whitespace character that is not a line terminator for the backtracked
`.` to consume. -/
def tailDotPlus (rest : JSStr) : Bool :=
  !((rest.dropWhile isWS).isEmpty) || rest.any (fun c => isWS c && c != '\n' && c != '\r')

/-- Parse the scope group `(\([^)]+\))?` of `COMMIT_TYPE_PATTERN`: after
`(`, the class `[^)]+` runs to the first `)`, which must close a
nonempty scope.  `some r` is the text after the closing parenthesis. -/
def scopeEnd : JSStr → Option JSStr
  | '(' :: r =>
    let inner := r.takeWhile (fun c => c != ')')
    let rest := r.dropWhile (fun c => c != ')')
    if !inner.isEmpty ∧ rest.head? = some ')' then some rest.tail else none
  | _ => none

/-- Test of `COMMIT_TYPE_PATTERN =
^(feat|fix|...|revert)(\([^)]+\))?!?:\s*.+/i` (src/unnamed/part_006
line 70).  No type is a prefix of another, so the alternation is
deterministic; a scope group that fails to close falls back to the
group being skipped, which then fails at the `:`. -/
def commitTypeTest (t : JSStr) : Bool :=
  let low := toLowerJS t
  match commitTypes.find? (fun ty => ty.toList.isPrefixOf low) with
  | some ty =>
    let r := low.drop ty.length
    let r1 := (scopeEnd r).getD r
    let r2 := if r1.head? = some '!' then r1.tail else r1
    match r2 with
    | ':' :: r3 => tailDotPlus r3
    | _ => false
  | none => false

/-- Test of `IMPERATIVE_PATTERN = ^(Add|Remove|...)\s+.+/i`
(src/unnamed/part_006 line 92): a verb, at least one whitespace
character, then the dot-plus tail.  No verb is a prefix of another. -/
def imperativeTest (t : JSStr) : Bool :=
  let low := toLowerJS t
  match imperativeVerbs.find? (fun v => v.toList.isPrefixOf low) with
  | some v =>
    match low.drop v.length with
    | c :: r => isWS c && tailDotPlus r
    | [] => false
  | none => false

/-- The anchor test of the scan loop (src/unnamed/part_006 lines
107-125) on a trimmed line: a conventional-commit line, or an
imperative-verb line of at most 100 characters. -/
def anchorLine (t : JSStr) : Bool :=
  commitTypeTest t || (imperativeTest t && t.length ≤ 100)

/-- The line scan of `extractCommitMessageAgentic` (src/unnamed/part_006
lines 98-126): skip blank lines, return the suffix starting at the first
anchor line, or fail. -/
def scanLines : List JSStr → Option (List JSStr)
  | [] => none
  | l :: ls =>
    if (jsTrim l).isEmpty then scanLines ls
    else if anchorLine (jsTrim l) then some (l :: ls)
    else scanLines ls

/-- Model of `extractCommitMessageAgentic` (src/unnamed/part_006 lines
94-130): the suffix from the first anchor line, cleaned of fences and
trimmed; without an anchor, fall back to the basic extraction. -/
def extractCommitMessageAgentic (s : JSStr) : JSStr :=
  match scanLines (splitNlJS s) with
  | some suffix => jsTrim (stripFencesEnd (stripFencesStart (joinNl suffix)))
  | none => extractCommitMessage s

/-- The spec's example input for the agentic extraction. -/
def agenticExample : JSStr :=
  "Sure, here".toList ++ [apos] ++
  "s the message:\n\nfeat: add retry logic\n\nAdds exponential backoff.".toList

/-- The spec's expected output for `agenticExample`. -/
def agenticExpected : JSStr :=
  "feat: add retry logic\n\nAdds exponential backoff.".toList

/-! ### Agent runtime and step budgets

The tool loop itself is the `ToolLoopAgent` of the external `ai`
package, configured with `stopWhen: stepCountIs(budget)`; it is not part
of this repository's sources.  Modelled from the spec: the runtime state
machine of spec section 4.4 — each iteration spends one model turn; a
text response is terminal; tool-call responses execute the tools, append
their results to the conversation and loop; the loop halts the moment
the step counter reaches the budget. -/

/-- A model response: terminal text, or a batch of tool-call requests
(each the name/arguments of the call, abstracted to a string). -/
inductive ModelResponse where
  | text (t : String)
  | toolCalls (calls : List String)

/-- A model strategy: the next response as a function of the
conversation so far (any strategy at all, including one that requests a
tool call on every turn). -/
def Strategy : Type := List String → ModelResponse

/-- Modelled from the spec (section 4.4): the bounded tool loop.  State
is the remaining budget and the conversation; the result is the number
of model turns spent paired with the terminal text (`none` when the
budget ran out first). -/
def runLoop (strategy : Strategy) (runTool : String → String) :
    Nat → List String → Nat × Option String
  | 0, _ => (0, none)
  | fuel + 1, conv =>
    match strategy conv with
    | ModelResponse.text t => (1, some t)
    | ModelResponse.toolCalls calls =>
      let r := runLoop strategy runTool fuel (conv ++ calls.map runTool)
      (r.1 + 1, r.2)

/-- The number of model turns one agent run spends. -/
def agentModelTurns (strategy : Strategy) (runTool : String → String)
    (budget : Nat) (prompt : String) : Nat :=
  (runLoop strategy runTool budget [prompt]).1

/-- The pathological strategy that requests a tool call on every turn. -/
def alwaysToolCall : Strategy := fun _ => ModelResponse.toolCalls ["getDiff"]

/-- Step budget of the code-review agent: `stopWhen: stepCountIs(15)`
(src/src/lib/agents/agents/review.ts line 70). -/
def reviewAgentBudget : Nat := 15

/-- Step budget of the PR-description agent: `stopWhen: stepCountIs(10)`
(src/src/lib/agents/agents/review.ts second document, line 170). -/
def prAgentBudget : Nat := 10

/-- Step budget of the documentation agent: `stopWhen: stepCountIs(10)`
(src/unnamed/part_002 line 66). -/
def docsAgentBudget : Nat := 10

/-! ### Auxiliary definitions for the statements and proofs -/

/-- No occurrence of the record separator `"\x00\n"` inside a string. -/
def noNulNl : JSStr → Bool
  | [] => true
  | c :: rest => !((c == '\x00') && (rest.head? == some '\n')) && noNulNl rest

/-- The log output after `exec`'s trim: records joined by the separator
`"\x00\n"`, the last keeping its `%x00` but losing its newline. -/
def strippedLog : List CommitInfo → JSStr
  | [] => []
  | [c] => rawRecord c ++ ['\x00']
  | c :: cs => rawRecord c ++ '\x00' :: '\n' :: strippedLog cs

/-- The entry list `split("\x00\n")` produces on a stripped log: every
record bare, except the last which keeps a trailing NUL. -/
def logEntries : List CommitInfo → List JSStr
  | [] => []
  | [c] => [rawRecord c ++ ['\x00']]
  | c :: cs => rawRecord c :: logEntries cs

/-- Two concrete well-formed commits, the first with a body containing
an embedded newline and tab. -/
def exampleCommits : List CommitInfo :=
  [⟨"abc123".toList, "feat: add x".toList, "line1\n\tline2".toList⟩,
   ⟨"def456".toList, "fix y".toList, []⟩]

/-- A sanitizer output containing no fence and no throat-clearing
preamble. -/
def cleanSample : JSStr := "fix: y".toList

/-- The preamble lines of the spec's agentic-extraction example. -/
def agenticPre : List JSStr :=
  ["Sure, here".toList ++ [apos] ++ "s the message:".toList, []]

/-- The anchor line of the spec's agentic-extraction example. -/
def agenticAnchor : JSStr := "feat: add retry logic".toList

/-- The lines after the anchor in the spec's agentic-extraction
example. -/
def agenticRest : List JSStr := [[], "Adds exponential backoff.".toList]

/-! ### Theorems -/

theorem splitChar_no_sep (sep : Char) (a : JSStr) (h : sep ∉ a) : splitChar sep a = [a] := by
  induction a with
  | nil => simp [splitChar]
  | cons c a ih =>
    have hc : ¬ c = sep := fun e => h (by simp [e])
    have ha : sep ∉ a := fun m => h (List.mem_cons_of_mem _ m)
    simp only [splitChar, if_neg hc, ih ha]

theorem splitChar_append (sep : Char) (a rest : JSStr) (h : sep ∉ a) :
    splitChar sep (a ++ sep :: rest) = a :: splitChar sep rest := by
  induction a with
  | nil => simp [splitChar]
  | cons c a ih =>
    have hc : ¬ c = sep := fun e => h (by simp [e])
    have ha : sep ∉ a := fun m => h (List.mem_cons_of_mem _ m)
    simp only [List.cons_append, splitChar, if_neg hc]
    rw [List.append_eq, ih ha]

theorem splitChar_joinChar (sep : Char) (ls : List JSStr) (hne : ls ≠ [])
    (h : ∀ l ∈ ls, sep ∉ l) : splitChar sep (joinChar sep ls) = ls := by
  induction ls with
  | nil => exact absurd rfl hne
  | cons l ls ih =>
    cases ls with
    | nil => exact splitChar_no_sep sep l (h l (by simp))
    | cons l' ls' =>
      have hj : joinChar sep (l :: l' :: ls') = l ++ sep :: joinChar sep (l' :: ls') := rfl
      rw [hj, splitChar_append sep l _ (h l (by simp)),
        ih (by simp) (fun x hx => h x (List.mem_cons_of_mem _ hx))]

theorem noNulNl_tail {c : Char} {rest : JSStr} (h : noNulNl (c :: rest) = true) :
    noNulNl rest = true := by
  simp only [noNulNl, Bool.and_eq_true] at h
  exact h.2

theorem noNulNl_cons_iff (c : Char) (rest : JSStr) :
    noNulNl (c :: rest) = true ↔
      ¬(c = '\x00' ∧ rest.head? = some '\n') ∧ noNulNl rest = true := by
  simp only [noNulNl, Bool.and_eq_true, Bool.not_eq_true', Bool.and_eq_false_iff]
  constructor
  · rintro ⟨h1, h2⟩
    refine ⟨?_, h2⟩
    rintro ⟨hc, hh⟩
    rcases h1 with h | h
    · rw [hc] at h; simp at h
    · rw [hh] at h; simp at h
  · rintro ⟨h1, h2⟩
    refine ⟨?_, h2⟩
    by_cases hc : c = '\x00'
    · right
      by_contra hh
      simp only [beq_eq_false_iff_ne, ne_eq, Decidable.not_not] at hh
      exact h1 ⟨hc, hh⟩
    · left
      simp [hc]

theorem noNulNl_cons_nul {rest : JSStr} (h1 : rest.head? ≠ some '\n')
    (h2 : noNulNl rest = true) : noNulNl ('\x00' :: rest) = true := by
  rw [noNulNl_cons_iff]
  exact ⟨fun hc => h1 hc.2, h2⟩

theorem noNulNl_append_no_nul {a b : JSStr} (ha : '\x00' ∉ a) (hb : noNulNl b = true) :
    noNulNl (a ++ b) = true := by
  induction a with
  | nil => simpa using hb
  | cons c a ih =>
    have hc : ¬ c = '\x00' := fun e => ha (by simp [e])
    have ha' : '\x00' ∉ a := fun m => ha (List.mem_cons_of_mem _ m)
    rw [List.cons_append, noNulNl_cons_iff]
    exact ⟨fun hp => hc hp.1, ih ha'⟩

theorem noNulNl_nil : noNulNl [] = true := rfl

theorem noNulNl_single (c : Char) : noNulNl [c] = true := by
  rw [noNulNl_cons_iff]
  exact ⟨fun hp => by simp at hp, rfl⟩

theorem splitNulNl_ne_nil (s : JSStr) : splitNulNl s ≠ [] := by
  induction s using splitNulNl.induct with
  | case1 => simp [splitNulNl]
  | case2 c => simp [splitNulNl]
  | case3 c₁ c₂ rest hsep ih => simp [splitNulNl, if_pos hsep]
  | case4 c₁ c₂ rest hsep heq ih => simp [splitNulNl, if_neg hsep, heq]
  | case5 c₁ c₂ rest hsep r rs heq ih => simp [splitNulNl, if_neg hsep, heq]

theorem splitNulNl_no_sep (s : JSStr) (h : noNulNl s = true) : splitNulNl s = [s] := by
  induction s using splitNulNl.induct with
  | case1 => rfl
  | case2 c => rfl
  | case3 c₁ c₂ rest hsep ih =>
    exfalso
    rw [noNulNl_cons_iff] at h
    exact h.1 (by simpa using hsep)
  | case4 c₁ c₂ rest hsep heq ih =>
    exact absurd heq (splitNulNl_ne_nil _)
  | case5 c₁ c₂ rest hsep r rs heq ih =>
    rw [noNulNl_cons_iff] at h
    have hr : r :: rs = [c₂ :: rest] := heq.symm.trans (ih h.2)
    simp only [List.cons.injEq] at hr
    simp only [splitNulNl, if_neg hsep, heq, hr.1, hr.2]

theorem splitNulNl_append (a rest : JSStr) (h : noNulNl a = true) :
    splitNulNl (a ++ '\x00' :: '\n' :: rest) = a :: splitNulNl rest := by
  induction a with
  | nil =>
    simp [splitNulNl]
  | cons c a' ih =>
    rw [noNulNl_cons_iff] at h
    cases a' with
    | nil =>
      have hsep : ¬ (c = '\x00' ∧ '\x00' = '\n') := by
        rintro ⟨_, hc⟩
        simp at hc
      have hinner : splitNulNl ('\x00' :: '\n' :: rest) = [] :: splitNulNl rest := by
        simp [splitNulNl]
      simp only [List.cons_append, List.nil_append]
      rw [splitNulNl.eq_def]
      simp only [if_neg hsep, hinner]
    | cons d a'' =>
      have hsep : ¬ (c = '\x00' ∧ d = '\n') := by
        rintro ⟨hc, hd⟩
        exact h.1 ⟨hc, by simp [hd]⟩
      have hinner := ih h.2
      simp only [List.cons_append] at hinner ⊢
      simp only [splitNulNl, if_neg hsep, hinner]

theorem dropWhile_self_of_head {p : Char → Bool} {l : JSStr} {c : Char}
    (hh : l.head? = some c) (hc : p c = false) : l.dropWhile p = l := by
  cases l with
  | nil => rfl
  | cons x xs =>
    simp only [List.head?_cons, Option.some.injEq] at hh
    subst hh
    simp [List.dropWhile_cons, hc]

theorem dropWhile_fixed_head {p : Char → Bool} {c : Char} {t : JSStr}
    (h : List.dropWhile p (c :: t) = c :: t) : p c = false := by
  by_contra hb
  have hc : p c = true := by
    cases hpc : p c
    · exact absurd hpc hb
    · rfl
  rw [List.dropWhile_cons, hc] at h
  have := congrArg List.length h
  have hle : (List.dropWhile p t).length ≤ t.length := (List.dropWhile_sublist p).length_le
  simp at this
  omega

theorem dropWhile_idem (p : Char → Bool) (l : JSStr) :
    List.dropWhile p (List.dropWhile p l) = List.dropWhile p l := by
  induction l with
  | nil => rfl
  | cons c t ih =>
    rw [List.dropWhile_cons]
    cases hc : p c
    · simp [List.dropWhile_cons, hc]
    · simpa using ih

theorem dropWhile_fixed_of_isPrefix {p : Char → Bool} {u w : JSStr}
    (hu : List.dropWhile p u = u) (hw : w <+: u) : List.dropWhile p w = w := by
  cases w with
  | nil => rfl
  | cons c w' =>
    obtain ⟨t, ht⟩ := hw
    have hh : u.head? = some c := by rw [← ht]; rfl
    have hcu : p c = false := by
      cases u with
      | nil => simp at hh
      | cons x xs =>
        simp only [List.head?_cons, Option.some.injEq] at hh
        subst hh
        exact dropWhile_fixed_head hu
    exact dropWhile_self_of_head rfl hcu

theorem jsTrim_idem (s : JSStr) : jsTrim (jsTrim s) = jsTrim s := by
  unfold jsTrim
  set u := s.dropWhile isWS with hu
  have hufix : List.dropWhile isWS u = u := dropWhile_idem isWS s
  set v := u.reverse.dropWhile isWS with hv
  have hvrev : v.reverse <+: u := by
    obtain ⟨t, ht⟩ := (List.dropWhile_suffix isWS : v <:+ u.reverse)
    exact ⟨t.reverse, by rw [← List.reverse_append, ht, List.reverse_reverse]⟩
  have h1 : v.reverse.dropWhile isWS = v.reverse := dropWhile_fixed_of_isPrefix hufix hvrev
  have hvfix : List.dropWhile isWS v = v := dropWhile_idem isWS u.reverse
  rw [h1, List.reverse_reverse, hvfix]

theorem jsTrim_length_le (s : JSStr) : (jsTrim s).length ≤ s.length := by
  unfold jsTrim
  have h1 : (s.dropWhile isWS).length ≤ s.length := (List.dropWhile_sublist isWS).length_le
  have h2 : ((s.dropWhile isWS).reverse.dropWhile isWS).length ≤
      (s.dropWhile isWS).reverse.length := (List.dropWhile_sublist isWS).length_le
  simp only [List.length_reverse] at *
  omega

theorem jsTrim_head_not_ws {s : JSStr} {c : Char} (hfix : jsTrim s = s)
    (hh : s.head? = some c) : isWS c = false := by
  cases s with
  | nil => simp at hh
  | cons x xs =>
    simp only [List.head?_cons, Option.some.injEq] at hh
    rw [← hh]
    by_contra hb
    have hc : isWS x = true := by
      cases hpc : isWS x
      · exact absurd hpc hb
      · rfl
    have hlen : (jsTrim (x :: xs)).length ≤ xs.length := by
      have hdw : List.dropWhile isWS (x :: xs) = List.dropWhile isWS xs := by
        simp [List.dropWhile_cons, hc]
      unfold jsTrim
      rw [hdw]
      have h1 : (xs.dropWhile isWS).length ≤ xs.length := (List.dropWhile_sublist isWS).length_le
      have h2 : ((xs.dropWhile isWS).reverse.dropWhile isWS).length ≤
          (xs.dropWhile isWS).reverse.length := (List.dropWhile_sublist isWS).length_le
      simp only [List.length_reverse] at *
      omega
    rw [hfix] at hlen
    simp at hlen

theorem mem_dropWhile_of_not {p : Char → Bool} {c : Char} {l : JSStr}
    (hm : c ∈ l) (hc : p c = false) : c ∈ List.dropWhile p l := by
  induction l with
  | nil => simp at hm
  | cons x xs ih =>
    rw [List.dropWhile_cons]
    cases hx : p x
    · simpa using hm
    · rcases List.mem_cons.mp hm with rfl | hm'
      · rw [hx] at hc; exact absurd hc (by simp)
      · exact ih hm'

theorem mem_jsTrim {c : Char} {s : JSStr} (hm : c ∈ s) (hc : isWS c = false) :
    c ∈ jsTrim s := by
  unfold jsTrim
  rw [List.mem_reverse]
  exact mem_dropWhile_of_not (by rw [List.mem_reverse]; exact mem_dropWhile_of_not hm hc) hc

theorem jsTrim_ne_nil {c : Char} {s : JSStr} (hm : c ∈ s) (hc : isWS c = false) :
    jsTrim s ≠ [] := by
  intro h
  have := mem_jsTrim hm hc
  rw [h] at this
  simp at this

theorem goodCommit_fields {c : CommitInfo} (h : goodCommit c = true) :
    c.hash ≠ [] ∧ (∀ ch ∈ c.hash, isWS ch = false ∧ ch ≠ '\x00') ∧
    '\x00' ∉ c.subject ∧ c.subject.head? ≠ some '\n' ∧
    '\x00' ∉ c.body ∧ jsTrim c.body = c.body := by
  simp only [goodCommit, Bool.and_eq_true, List.all_eq_true, Bool.not_eq_true',
    List.isEmpty_eq_false, bne_iff_ne, ne_eq, List.contains, List.elem_eq_mem,
    decide_eq_false_iff_not, beq_iff_eq] at h
  obtain ⟨⟨⟨⟨⟨h1, h2⟩, h3⟩, h4⟩, h5⟩, h6⟩ := h
  refine ⟨h1, ?_, h3, h4, h5, h6⟩
  intro ch hch
  have := h2 ch hch
  exact ⟨this.1, this.2⟩

theorem noNulNl_of_no_nul {a : JSStr} (ha : '\x00' ∉ a) : noNulNl a = true := by
  have h := noNulNl_append_no_nul ha noNulNl_nil
  simpa using h

theorem head_ne_nl_of_trimmed {b : JSStr} (hfix : jsTrim b = b) : b.head? ≠ some '\n' := by
  intro hh
  have := jsTrim_head_not_ws hfix hh
  simp [isWS] at this

theorem noNulNl_mid {c : CommitInfo} (h : goodCommit c = true) (bext : JSStr)
    (hb : noNulNl (c.body ++ bext) = true) (hbh : (c.body ++ bext).head? ≠ some '\n') :
    noNulNl (c.hash ++ '\x00' :: (c.subject ++ '\x00' :: (c.body ++ bext))) = true := by
  obtain ⟨hh1, hh2, hs0, hsh, hb0, hbt⟩ := goodCommit_fields h
  have hhashnul : '\x00' ∉ c.hash := fun m => ((hh2 _ m).2 rfl)
  apply noNulNl_append_no_nul hhashnul
  apply noNulNl_cons_nul
  · cases hsj : c.subject with
    | nil => simp
    | cons x xs =>
      simp only [hsj, List.cons_append, List.head?_cons]
      intro he
      apply hsh
      rw [hsj]
      simpa using he
  · exact noNulNl_append_no_nul hs0 (noNulNl_cons_nul hbh hb)

theorem noNulNl_rawRecord {c : CommitInfo} (h : goodCommit c = true) :
    noNulNl (rawRecord c) = true := by
  obtain ⟨_, _, _, _, hb0, hbt⟩ := goodCommit_fields h
  have hmid := noNulNl_mid h []
    (by rw [List.append_nil]; exact noNulNl_of_no_nul hb0)
    (by rw [List.append_nil]; exact head_ne_nl_of_trimmed hbt)
  simpa [rawRecord] using hmid

theorem noNulNl_rawRecord_nul {c : CommitInfo} (h : goodCommit c = true) :
    noNulNl (rawRecord c ++ ['\x00']) = true := by
  obtain ⟨_, _, _, _, hb0, hbt⟩ := goodCommit_fields h
  have hbext : noNulNl (c.body ++ ['\x00']) = true :=
    noNulNl_append_no_nul hb0 (noNulNl_single _)
  have hbh : (c.body ++ ['\x00']).head? ≠ some '\n' := by
    cases hbj : c.body with
    | nil => simp
    | cons x xs =>
      simp only [hbj, List.cons_append, List.head?_cons]
      intro he
      apply head_ne_nl_of_trimmed hbt
      rw [hbj]
      simpa using he
  have hmid := noNulNl_mid h ['\x00'] hbext hbh
  have hshape : rawRecord c ++ ['\x00'] =
      c.hash ++ '\x00' :: (c.subject ++ '\x00' :: (c.body ++ ['\x00'])) := by
    simp [rawRecord]
  rw [hshape]
  exact hmid

theorem parseLogEntry_rawRecord {c : CommitInfo} (h : goodCommit c = true) :
    parseLogEntry (rawRecord c) = c := by
  obtain ⟨_, hh2, hs0, _, hb0, hbt⟩ := goodCommit_fields h
  have hhashnul : '\x00' ∉ c.hash := fun m => ((hh2 _ m).2 rfl)
  have hshape : rawRecord c = c.hash ++ '\x00' :: (c.subject ++ '\x00' :: c.body) := by
    simp [rawRecord, List.cons_append, List.append_assoc]
  have hsplit : splitNul (rawRecord c) = [c.hash, c.subject, c.body] := by
    unfold splitNul
    rw [hshape, splitChar_append _ _ _ hhashnul, splitChar_append _ _ _ hs0,
      splitChar_no_sep _ _ hb0]
  have hres : parseLogEntry (rawRecord c) =
      { hash := c.hash, subject := c.subject, body := jsTrim c.body } := by
    simp [parseLogEntry, hsplit]
  rw [hres, hbt]

theorem parseLogEntry_rawRecord_nul {c : CommitInfo} (h : goodCommit c = true) :
    parseLogEntry (rawRecord c ++ ['\x00']) = c := by
  obtain ⟨_, hh2, hs0, _, hb0, hbt⟩ := goodCommit_fields h
  have hhashnul : '\x00' ∉ c.hash := fun m => ((hh2 _ m).2 rfl)
  have hshape : rawRecord c ++ ['\x00'] =
      c.hash ++ '\x00' :: (c.subject ++ '\x00' :: (c.body ++ '\x00' :: [])) := by
    simp [rawRecord]
  have hsplit : splitNul (rawRecord c ++ ['\x00']) = [c.hash, c.subject, c.body, []] := by
    unfold splitNul
    rw [hshape, splitChar_append _ _ _ hhashnul, splitChar_append _ _ _ hs0,
      splitChar_append _ _ _ hb0]
    rfl
  have hres : parseLogEntry (rawRecord c ++ ['\x00']) =
      { hash := c.hash, subject := c.subject, body := jsTrim c.body } := by
    simp [parseLogEntry, hsplit]
  rw [hres, hbt]

theorem gitLog_strip (c : CommitInfo) (cs : List CommitInfo) :
    gitLogOutput (c :: cs) = strippedLog (c :: cs) ++ ['\n'] := by
  induction cs generalizing c with
  | nil => simp [gitLogOutput, strippedLog, logRecord]
  | cons c' cs' ih =>
    have h1 : gitLogOutput (c :: c' :: cs') = logRecord c ++ gitLogOutput (c' :: cs') := by
      simp [gitLogOutput]
    have h2 : strippedLog (c :: c' :: cs') =
        rawRecord c ++ '\x00' :: '\n' :: strippedLog (c' :: cs') := rfl
    rw [h1, ih c', h2, logRecord]
    simp

theorem strippedLog_ends (c : CommitInfo) (cs : List CommitInfo) :
    ∃ w, strippedLog (c :: cs) = w ++ ['\x00'] := by
  induction cs generalizing c with
  | nil => exact ⟨rawRecord c, rfl⟩
  | cons c' cs' ih =>
    obtain ⟨w', hw'⟩ := ih c'
    refine ⟨rawRecord c ++ '\x00' :: '\n' :: w', ?_⟩
    have h2 : strippedLog (c :: c' :: cs') =
        rawRecord c ++ '\x00' :: '\n' :: strippedLog (c' :: cs') := rfl
    rw [h2, hw']
    simp

theorem strippedLog_head (c : CommitInfo) (cs : List CommitInfo) (h0 : Char) (hs : JSStr)
    (hhash : c.hash = h0 :: hs) : ∃ t, strippedLog (c :: cs) = h0 :: t := by
  cases cs with
  | nil =>
    refine ⟨hs ++ '\x00' :: (c.subject ++ '\x00' :: c.body) ++ ['\x00'], ?_⟩
    show rawRecord c ++ ['\x00'] = _
    rw [rawRecord, hhash]
    simp
  | cons c' cs' =>
    refine ⟨hs ++ '\x00' :: (c.subject ++ '\x00' :: c.body) ++
      '\x00' :: '\n' :: strippedLog (c' :: cs'), ?_⟩
    show rawRecord c ++ '\x00' :: '\n' :: strippedLog (c' :: cs') = _
    rw [rawRecord, hhash]
    simp

theorem jsTrim_gitLogOutput (c : CommitInfo) (cs : List CommitInfo)
    (hgood : goodCommit c = true) :
    jsTrim (gitLogOutput (c :: cs)) = strippedLog (c :: cs) := by
  obtain ⟨hh1, hh2, _, _, _, _⟩ := goodCommit_fields hgood
  obtain ⟨h0, hs, hhash⟩ : ∃ h0 hs, c.hash = h0 :: hs := by
    cases hc : c.hash with
    | nil => exact absurd hc hh1
    | cons a b => exact ⟨a, b, rfl⟩
  have hh0 : isWS h0 = false := (hh2 h0 (by rw [hhash]; simp)).1
  obtain ⟨t, ht⟩ := strippedLog_head c cs h0 hs hhash
  obtain ⟨w, hw⟩ := strippedLog_ends c cs
  rw [gitLog_strip]
  unfold jsTrim
  have hdw : List.dropWhile isWS (strippedLog (c :: cs) ++ ['\n']) =
      strippedLog (c :: cs) ++ ['\n'] := by
    rw [ht]
    simp [List.dropWhile_cons, hh0]
  rw [hdw, hw]
  have hrev : ((w ++ ['\x00']) ++ ['\n']).reverse = '\n' :: '\x00' :: w.reverse := by simp
  rw [hrev]
  have hnl : isWS '\n' = true := by decide
  have hnul : isWS '\x00' = false := by decide
  have hdrop : List.dropWhile isWS ('\n' :: '\x00' :: w.reverse) = '\x00' :: w.reverse := by
    simp [List.dropWhile_cons, hnl, hnul]
  rw [hdrop]
  simp

theorem splitNulNl_strippedLog (c : CommitInfo) (cs : List CommitInfo)
    (h : ∀ x ∈ c :: cs, goodCommit x = true) :
    splitNulNl (strippedLog (c :: cs)) = logEntries (c :: cs) := by
  induction cs generalizing c with
  | nil =>
    have hstep : strippedLog [c] = rawRecord c ++ ['\x00'] := rfl
    rw [hstep, splitNulNl_no_sep _ (noNulNl_rawRecord_nul (h c (by simp)))]
    rfl
  | cons c' cs' ih =>
    have hstep : strippedLog (c :: c' :: cs') =
        rawRecord c ++ '\x00' :: '\n' :: strippedLog (c' :: cs') := rfl
    rw [hstep, splitNulNl_append _ _ (noNulNl_rawRecord (h c (by simp)))]
    rw [ih c' (fun x hx => h x (List.mem_cons_of_mem _ hx))]
    rfl

theorem parse_logEntries (commits : List CommitInfo)
    (h : ∀ x ∈ commits, goodCommit x = true) :
    ((logEntries commits).filter (fun e => !(jsTrim e).isEmpty)).map parseLogEntry = commits := by
  induction commits with
  | nil => rfl
  | cons c cs ih =>
    have hgood := h c (by simp)
    cases cs with
    | nil =>
      have hnul2 : ('\x00' : Char) ∈ rawRecord c ++ ['\x00'] := by simp
      have hkeep : (!(jsTrim (rawRecord c ++ ['\x00'])).isEmpty) = true := by
        have hne := jsTrim_ne_nil hnul2 (by decide)
        simpa using hne
      have hlog : logEntries [c] = [rawRecord c ++ ['\x00']] := rfl
      rw [hlog]
      simp only [List.filter_cons, hkeep, if_true, List.map_cons, List.filter_nil,
        List.map_nil]
      simp [parseLogEntry_rawRecord_nul hgood]
    | cons c' cs' =>
      have hnul : ('\x00' : Char) ∈ rawRecord c := by
        simp [rawRecord]
      have hkeep : (!(jsTrim (rawRecord c)).isEmpty) = true := by
        have hne := jsTrim_ne_nil hnul (by decide)
        simpa using hne
      have hlog : logEntries (c :: c' :: cs') = rawRecord c :: logEntries (c' :: cs') := rfl
      rw [hlog]
      simp only [List.filter_cons, hkeep, if_true, List.map_cons]
      rw [parseLogEntry_rawRecord hgood, ih (fun x hx => h x (List.mem_cons_of_mem _ hx))]

/-- C6: commit-record parsing round-trips — for every list of
well-formed commits (nonempty hex hash, NUL-free subject not starting
with a newline, NUL-free body with no leading or trailing whitespace,
embedded newlines and tabs allowed), parsing the synthetic NUL-delimited
plumbing output reproduces every hash, subject and body exactly. -/
theorem commit_log_roundtrip (commits : List CommitInfo)
    (h : ∀ c ∈ commits, goodCommit c = true) :
    parseLogOutput (jsTrim (gitLogOutput commits)) = commits := by
  cases commits with
  | nil => rfl
  | cons c cs =>
    rw [jsTrim_gitLogOutput c cs (h c (by simp))]
    have hne : ¬ strippedLog (c :: cs) = [] := by
      obtain ⟨w, hw⟩ := strippedLog_ends c cs
      rw [hw]
      simp
    unfold parseLogOutput
    rw [if_neg hne, splitNulNl_strippedLog c cs h, parse_logEntries _ h]

theorem commit_log_roundtrip_witness :
    (∀ c ∈ exampleCommits, goodCommit c = true) ∧
    parseLogOutput (jsTrim (gitLogOutput exampleCommits)) = exampleCommits :=
  ⟨by decide, commit_log_roundtrip exampleCommits (by decide)⟩

theorem foldl_length_sum (l : List JSStr) (n : Nat) :
    l.foldl (fun sum s => sum + s.length) n = n + (l.map List.length).sum := by
  induction l generalizing n with
  | nil => simp
  | cons x xs ih => simp [List.foldl_cons, ih, Nat.add_assoc]

/-- C3: a file longer than the 100000-character ceiling is returned as
exactly its first 100000 characters followed by the fixed truncation
marker; a file of at most 100000 characters is returned verbatim with no
marker. -/
theorem readFile_truncation_exact (content : JSStr) :
    (content.length > 100000 →
      readFileResult content = content.take 100000 ++ truncationMarker ∧
      (content.take 100000).length = 100000) ∧
    (content.length ≤ 100000 → readFileResult content = content) := by
  constructor
  · intro h
    refine ⟨by simp [readFileResult, h], ?_⟩
    simp only [List.length_take]
    omega
  · intro h
    unfold readFileResult
    rw [if_neg (by omega)]

theorem readFile_truncation_exact_witness :
    bigContent.length > 100000 ∧
    readFileResult bigContent = bigContent.take 100000 ++ truncationMarker := by
  have hlen : bigContent.length = 100001 := by
    unfold bigContent
    exact List.length_replicate 100001 'a'
  exact ⟨by omega, ((readFile_truncation_exact bigContent).1 (by omega)).1⟩

/-- C1 (failing input): with root `/a`, the relative path `../ab/x`
resolves to `/ab/x`, which is not at or under the root, yet the
`startsWith` sandbox check grants access because the string `/ab/x`
begins with the string `/a`; a path genuinely under the root is also
granted, as the claim says. -/
theorem sandbox_escape_eval :
    sandboxOk ["a"] ["..", "ab", "x"] = true ∧
    resolveComps ["a"] ["..", "ab", "x"] = ["ab", "x"] ∧
    ¬ (["a"] <+: resolveComps ["a"] ["..", "ab", "x"]) ∧
    sandboxOk ["a"] ["sub"] = true := by
  refine ⟨by decide, by decide, by decide, by decide⟩

theorem runLoop_turns_le (strategy : Strategy) (runTool : String → String) :
    ∀ (fuel : Nat) (conv : List String), (runLoop strategy runTool fuel conv).1 ≤ fuel := by
  intro fuel
  induction fuel with
  | zero => intro conv; simp [runLoop]
  | succ n ih =>
    intro conv
    simp only [runLoop]
    cases strategy conv with
    | text t => simp
    | toolCalls calls =>
      simp only []
      have := ih (conv ++ calls.map runTool)
      omega

theorem runLoop_alwaysTool (runTool : String → String) :
    ∀ (fuel : Nat) (conv : List String),
      (runLoop alwaysToolCall runTool fuel conv).1 = fuel := by
  intro fuel
  induction fuel with
  | zero => intro conv; simp [runLoop]
  | succ n ih =>
    intro conv
    simp only [runLoop, alwaysToolCall]
    simpa using ih _

/-- C2: for every model strategy the agent run spends at most the
configured budget of model turns; the pathological strategy that always
requests a tool call spends exactly the budget; and the configured
budgets are 15 for code review and 10 for PR descriptions and
documentation. -/
theorem agent_budget_caps_turns :
    (∀ (strategy : Strategy) (runTool : String → String) (prompt : String),
      agentModelTurns strategy runTool reviewAgentBudget prompt ≤ reviewAgentBudget ∧
      agentModelTurns strategy runTool prAgentBudget prompt ≤ prAgentBudget ∧
      agentModelTurns strategy runTool docsAgentBudget prompt ≤ docsAgentBudget) ∧
    (∀ (runTool : String → String) (prompt : String),
      agentModelTurns alwaysToolCall runTool reviewAgentBudget prompt = reviewAgentBudget ∧
      agentModelTurns alwaysToolCall runTool prAgentBudget prompt = prAgentBudget ∧
      agentModelTurns alwaysToolCall runTool docsAgentBudget prompt = docsAgentBudget) ∧
    reviewAgentBudget = 15 ∧ prAgentBudget = 10 ∧ docsAgentBudget = 10 := by
  refine ⟨?_, ?_, rfl, rfl, rfl⟩
  · intro strategy runTool prompt
    exact ⟨runLoop_turns_le _ _ _ _, runLoop_turns_le _ _ _ _, runLoop_turns_le _ _ _ _⟩
  · intro runTool prompt
    exact ⟨runLoop_alwaysTool _ _ _, runLoop_alwaysTool _ _ _, runLoop_alwaysTool _ _ _⟩

/-- C5 counterexample: in a state where the plumbing throws (not a git
repository), `getStagedDiff` — a repository-query function — propagates
the exception instead of returning an empty result. -/
theorem getStagedDiff_throws :
    getStagedDiff notARepoEnv = Except.error "fatal: not a git repository" := rfl

/-- C5 amended: the query functions wrapped in try/catch degrade to an
empty result both when the plumbing throws and when it reports nothing;
the staged-changes queries (`getStagedDiff`, `getStagedFiles`) instead
propagate the exception. -/
theorem wrapped_git_queries_degrade_empty (env : GitEnv) (base head : String) (count : Nat) :
    ((∀ cmd, (env cmd).isOk = false) →
      getCommitsBetween env base head = [] ∧ getDiffBetween env base head = "" ∧
      getFilesChangedBetween env base head = [] ∧ getRecentCommits env count = []) ∧
    ((∀ cmd, env cmd = Except.ok "") →
      getCommitsBetween env base head = [] ∧ getDiffBetween env base head = "" ∧
      getFilesChangedBetween env base head = [] ∧ getRecentCommits env count = []) := by
  constructor
  · intro h
    have herr : ∀ cmd, ∃ e, env cmd = Except.error e := by
      intro cmd
      cases hc : env cmd with
      | error e => exact ⟨e, rfl⟩
      | ok v =>
        have := h cmd
        rw [hc] at this
        simp [Except.isOk, Except.toBool] at this
    refine ⟨?_, ?_, ?_, ?_⟩
    · obtain ⟨e, he⟩ := herr ("git log " ++ base ++ ".." ++ head ++ " --format=\"%H%x00%s%x00%b%x00\"")
      simp [getCommitsBetween, gitExec, he, Except.map]
    · obtain ⟨e, he⟩ := herr ("git diff " ++ base ++ "..." ++ head)
      simp [getDiffBetween, gitExec, he, Except.map]
    · obtain ⟨e, he⟩ := herr ("git diff --name-status " ++ base ++ "..." ++ head)
      simp [getFilesChangedBetween, gitExec, he, Except.map]
    · obtain ⟨e, he⟩ := herr ("git log -n " ++ toString count ++ " --format=\"%H%x00%s%x00%b%x00\"")
      simp [getRecentCommits, gitExec, he, Except.map]
  · intro h
    have hj : jsTrim ([] : JSStr) = [] := rfl
    have htrim : String.mk (jsTrim "".toList) = "" := by decide
    refine ⟨?_, ?_, ?_, ?_⟩
    · simp [getCommitsBetween, gitExec, h, htrim, hj, parseLogOutput, Except.map]
    · simp [getDiffBetween, gitExec, h, htrim, hj, Except.map]
    · simp [getFilesChangedBetween, gitExec, h, htrim, hj, Except.map]
    · simp [getRecentCommits, gitExec, h, htrim, hj, parseLogOutput, Except.map]

/-- C4 counterexample: the `getStagedChanges` tool executor lets the
plumbing exception of a not-a-repository state escape the tool boundary
instead of returning a failure string. -/
theorem stagedChanges_tool_throws :
    getStagedChangesExec notARepoEnv = Except.error "fatal: not a git repository" := rfl

/-- C4 amended: the tools whose executors wrap their fallible work in
try/catch — `readFile` and `listFiles` here — always return a result and
convert internal errors into descriptive text, for every filesystem
state and input. -/
theorem caught_file_tools_never_throw (fs : FsEnv) (base rel : List String)
    (pattern : Option String) :
    (readFileExec fs base rel).isOk = true ∧
    (listFilesExec fs base rel pattern).isOk = true := by
  constructor
  · unfold readFileExec
    split
    · rfl
    · split
      · rfl
      · split <;> rfl
  · unfold listFilesExec
    split
    · rfl
    · split
      · rfl
      · split
        · rfl
        · rfl

/-- C7 counterexample: the sanitizer is not idempotent — stripping one
throat-clearing preamble can uncover a second one, which only a second
pass removes. -/
theorem extractCommitMessage_not_idempotent :
    extractCommitMessage (extractCommitMessage doublePreamble) ≠
      extractCommitMessage doublePreamble := by decide

/-- C7 amended: the sanitizer is idempotent on every input whose
sanitized form offers it nothing further to strip — no line-start code
fence, no line-end fence, no throat-clearing preamble; the final trim is
always idempotent. -/
theorem sanitizer_idempotent_on_clean (s : JSStr)
    (h1 : stripFencesStart (extractCommitMessage s) = extractCommitMessage s)
    (h2 : stripFencesEnd (extractCommitMessage s) = extractCommitMessage s)
    (h3 : matchPreambleCM (extractCommitMessage s) = none) :
    extractCommitMessage (extractCommitMessage s) = extractCommitMessage s := by
  conv_lhs => rw [extractCommitMessage]
  rw [h1, h2]
  unfold stripPreambleCM
  rw [h3]
  show jsTrim (extractCommitMessage s) = extractCommitMessage s
  unfold extractCommitMessage
  exact jsTrim_idem _

theorem sanitizer_idempotent_on_clean_witness :
    (stripFencesStart (extractCommitMessage cleanSample) = extractCommitMessage cleanSample ∧
     stripFencesEnd (extractCommitMessage cleanSample) = extractCommitMessage cleanSample ∧
     matchPreambleCM (extractCommitMessage cleanSample) = none) ∧
    extractCommitMessage (extractCommitMessage cleanSample) = extractCommitMessage cleanSample :=
  ⟨⟨by decide, by decide, by decide⟩,
   sanitizer_idempotent_on_clean cleanSample (by decide) (by decide) (by decide)⟩

theorem scanLines_first_anchor (pre : List JSStr) (anchor : JSStr) (rest : List JSStr)
    (hpre : ∀ l ∈ pre, anchorLine (jsTrim l) = false)
    (ha : anchorLine (jsTrim anchor) = true) :
    scanLines (pre ++ anchor :: rest) = some (anchor :: rest) := by
  induction pre with
  | nil =>
    simp only [List.nil_append, scanLines]
    have hne : ¬ (jsTrim anchor).isEmpty = true := by
      intro he
      have hempty : jsTrim anchor = [] := by simpa using he
      rw [hempty] at ha
      exact absurd ha (by decide)
    rw [if_neg hne, if_pos ha]
  | cons l pre' ih =>
    have hl : anchorLine (jsTrim l) = false := hpre l (by simp)
    have hpre' : ∀ x ∈ pre', anchorLine (jsTrim x) = false :=
      fun x hx => hpre x (List.mem_cons_of_mem _ hx)
    simp only [List.cons_append, scanLines]
    by_cases he : (jsTrim l).isEmpty = true
    · rw [if_pos he]
      exact ih hpre'
    · rw [if_neg he, if_neg (by simp [hl])]
      exact ih hpre'

/-- C8: the agentic extraction scans line by line and returns (cleaned
of fences and trimmed) the suffix starting at the first line matching
the conventional-commit pattern or the imperative-verb pattern under the
100-character ceiling, discarding all earlier lines; on the spec's
example input it returns exactly the expected message. -/
theorem agentic_extraction_first_anchor :
    (∀ (pre : List JSStr) (anchor : JSStr) (rest : List JSStr),
      (∀ l ∈ pre, anchorLine (jsTrim l) = false) →
      (∀ l ∈ pre ++ anchor :: rest, '\n' ∉ l) →
      anchorLine (jsTrim anchor) = true →
      extractCommitMessageAgentic (joinNl (pre ++ anchor :: rest)) =
        jsTrim (stripFencesEnd (stripFencesStart (joinNl (anchor :: rest))))) ∧
    extractCommitMessageAgentic agenticExample = agenticExpected := by
  constructor
  · intro pre anchor rest hpre hnl ha
    unfold extractCommitMessageAgentic
    have hsplit : splitNlJS (joinNl (pre ++ anchor :: rest)) = pre ++ anchor :: rest :=
      splitChar_joinChar '\n' _ (by simp) hnl
    rw [hsplit, scanLines_first_anchor pre anchor rest hpre ha]
  · decide

/-- C10: commit-style analysis is total — the empty commit list takes
the early return with the fixed default style (average 50, no
conventional commits, no examples), so the average's division is never
reached with a zero divisor; for every nonempty list the reported
average subject length is the rounded mean of the subject lengths. -/
theorem analyzeCommitStyle_total_average :
    (analyzeCommitStyle [] =
      { usesConventionalCommits := false
        conventionalPrefixes := []
        averageSubjectLength := 50
        usesCapitalizedSubject := true
        endsWithPeriod := false
        includesBody := false
        examples := [] }) ∧
    (∀ commits : List CommitInfo, commits ≠ [] →
      (analyzeCommitStyle commits).averageSubjectLength =
        mathRound ((commits.map (fun c => c.subject.length)).sum) commits.length) := by
  constructor
  · rfl
  · intro commits h
    unfold analyzeCommitStyle
    rw [if_neg h]
    simp only [foldl_length_sum, Nat.zero_add, List.length_map, List.map_map]
    rfl

theorem analyzeCommitStyle_total_average_witness :
    exampleCommits ≠ [] ∧
    (analyzeCommitStyle exampleCommits).averageSubjectLength =
      mathRound ((exampleCommits.map (fun c => c.subject.length)).sum) exampleCommits.length :=
  ⟨by decide, analyzeCommitStyle_total_average.2 exampleCommits (by decide)⟩

theorem agentic_extraction_first_anchor_witness :
    ((∀ l ∈ agenticPre, anchorLine (jsTrim l) = false) ∧
     (∀ l ∈ agenticPre ++ agenticAnchor :: agenticRest, '\n' ∉ l) ∧
     anchorLine (jsTrim agenticAnchor) = true ∧
     joinNl (agenticPre ++ agenticAnchor :: agenticRest) = agenticExample) ∧
    extractCommitMessageAgentic (joinNl (agenticPre ++ agenticAnchor :: agenticRest)) =
      jsTrim (stripFencesEnd (stripFencesStart (joinNl (agenticAnchor :: agenticRest)))) := by
  constructor
  · exact ⟨by decide, by decide, by decide, by decide⟩
  · exact (agentic_extraction_first_anchor).1 agenticPre agenticAnchor agenticRest
      (by decide) (by decide) (by decide)

theorem searchList_spec (pat : String) (m : Nat) :
    ∀ (k : Nat) (es : List FSEntry), sizeOf es ≤ k → ∀ (pre : String) (acc : List String),
      acc.length ≤ m →
      searchList pat m pre es acc = acc ++ (collectMatches pat pre es).take (m - acc.length) := by
  intro k
  induction k with
  | zero =>
    intro es hsz
    exfalso
    cases es with
    | nil => simp at hsz
    | cons e es' => simp only [List.cons.sizeOf_spec] at hsz; omega
  | succ n ih =>
    intro es hsz pre acc hacc
    cases es with
    | nil => simp [searchList, collectMatches]
    | cons e es' =>
      have hsz' : sizeOf es' ≤ n := by
        have h1 : 1 ≤ sizeOf e := by
          cases e
          · simp
          · simp
            omega
        simp only [List.cons.sizeOf_spec] at hsz
        omega
      conv_lhs => rw [searchList.eq_def]
      conv_rhs => rw [collectMatches.eq_def]
      by_cases hm : m ≤ acc.length
      · have heq : acc.length = m := le_antisymm hacc hm
        simp [if_pos hm, heq]
      · have hlt : acc.length < m := Nat.lt_of_not_le hm
        simp only [if_neg hm]
        by_cases hex : excludedName e.name = true
        · simp only [if_pos hex]
          exact ih es' hsz' pre acc hacc
        · simp only [if_neg hex]
          cases e with
          | file nm =>
            simp only []
            by_cases hend : nm.endsWith pat = true
            · simp only [FSEntry.name] at hex
              simp only [if_pos hend]
              rw [ih es' hsz' pre (acc ++ [pre ++ nm]) (by simp; omega)]
              rw [List.take_append_eq_append_take]
              have h1 : List.take (m - acc.length) [pre ++ nm] = [pre ++ nm] := by
                apply List.take_of_length_le
                simp
                omega
              rw [h1]
              simp only [List.append_assoc, List.length_singleton, List.length_append]
              congr 2
            · simp only [if_neg hend, List.nil_append]
              exact ih es' hsz' pre acc hacc
          | dir nm sub =>
            simp only []
            have hszsub : sizeOf sub ≤ n := by
              simp only [List.cons.sizeOf_spec, FSEntry.dir.sizeOf_spec] at hsz
              omega
            rw [ih sub hszsub (pre ++ nm ++ "/") acc hacc]
            have hlen' :
                (acc ++ (collectMatches pat (pre ++ nm ++ "/") sub).take (m - acc.length)).length ≤ m := by
              simp [List.length_take]
              omega
            rw [ih es' hsz' pre _ hlen']
            rw [List.take_append_eq_append_take]
            have harith :
                m - (acc ++ (collectMatches pat (pre ++ nm ++ "/") sub).take (m - acc.length)).length =
                  (m - acc.length) - (collectMatches pat (pre ++ nm ++ "/") sub).length := by
              simp [List.length_take]
              omega
            rw [harith]
            simp [List.append_assoc]

/-- C9: the recursive file search equals the cap-length truncation of
the in-order cap-free match list — so it returns at most the requested
maximum (default 50, also used when 0 is requested), deterministically
in traversal order, and stops contributing the moment the cap is
reached; and the match list never descends into hidden, `node_modules`
or `dist` directories, whatever they contain. -/
theorem findFiles_take_characterization (pat : String) (root : List FSEntry)
    (maxResults : Option Nat) :
    findFiles pat root maxResults = (collectMatches pat "" root).take (effectiveMax maxResults) ∧
    (findFiles pat root maxResults).length ≤ effectiveMax maxResults ∧
    effectiveMax none = 50 ∧
    (∀ (pre nm : String) (sub es : List FSEntry),
      collectMatches pat pre (FSEntry.dir ("." ++ nm) sub :: es) = collectMatches pat pre es ∧
      collectMatches pat pre (FSEntry.dir "node_modules" sub :: es) = collectMatches pat pre es ∧
      collectMatches pat pre (FSEntry.dir "dist" sub :: es) = collectMatches pat pre es) := by
  have hmain : findFiles pat root maxResults =
      (collectMatches pat "" root).take (effectiveMax maxResults) := by
    unfold findFiles
    have h := searchList_spec pat (effectiveMax maxResults) (sizeOf root) root le_rfl "" []
      (by simp)
    simpa using h
  refine ⟨hmain, ?_, rfl, ?_⟩
  · rw [hmain]
    simp [List.length_take]
  · intro pre nm sub es
    have hdot : excludedName ("." ++ nm) = true := by
      have h : ("." ++ nm).toList = '.' :: nm.toList := rfl
      simp [excludedName, h]
    refine ⟨?_, ?_, ?_⟩ <;>
      (conv_lhs => rw [collectMatches.eq_def]) <;>
      simp [FSEntry.name, hdot, excludedName]

theorem wrapped_git_queries_degrade_empty_witness :
    (∀ cmd, (notARepoEnv cmd).isOk = false) ∧
    getCommitsBetween notARepoEnv "main" "HEAD" = [] ∧
    getDiffBetween notARepoEnv "main" "HEAD" = "" ∧
    getFilesChangedBetween notARepoEnv "main" "HEAD" = [] ∧
    getRecentCommits notARepoEnv 10 = [] :=
  ⟨fun _ => rfl,
   (wrapped_git_queries_degrade_empty notARepoEnv "main" "HEAD" 10).1 (fun _ => rfl)⟩
